import Mathlib

/-!
Verification of the Connect-Four game engine and AI subsystem.

The definitions below are a shallow embedding of the TypeScript source:
`src/lib/game-logic.ts` (board, moves, win detection) and
`src/lib/services/ai-service.ts` (easy heuristic, minimax with alpha-beta
pruning, static evaluation), together with the move-validation order of the
game service (`GameService.validateMove` composed with `makeMove`).
-/

/-- Cell occupant: the two players. A cell is `Option Player`, `none` = empty
(`null` in the source). -/
inductive Player where
  | red
  | yellow
deriving DecidableEq, Repr, Fintype

/-- `ROWS = 6` in `game-logic.ts`. -/
def ROWS : Nat := 6

/-- `COLS = 7` in `game-logic.ts`. -/
def COLS : Nat := 7

/-- `WINNING_LENGTH = 4` in `game-logic.ts`. -/
def WINNING_LENGTH : Nat := 4

/-- A 6×7 matrix of cells, `board[row][col]` in the source. -/
def Board : Type := Fin 6 → Fin 7 → Option Player

instance : DecidableEq Board := by unfold Board; infer_instance

/-- `board[r][c]` for in-range indices; out-of-range access yields `none`
(the source always guards indices before accessing). -/
def cell (b : Board) (r c : Nat) : Option Player :=
  if h : r < 6 ∧ c < 7 then b ⟨r, h.1⟩ ⟨c, h.2⟩ else none

/-- Functional update of one board cell (`newBoard[row][col] = v`). -/
def setCell (b : Board) (r c : Nat) (v : Player) : Board :=
  fun i j => if (i : Nat) = r ∧ (j : Nat) = c then some v else b i j

/-- `(row, col)` pair as in `types/game.ts`. -/
structure Position where
  row : Nat
  col : Nat
deriving DecidableEq, Repr

/-- The `status` field values of `GameState`. -/
inductive GameStatus where
  | waiting
  | playing
  | won
  | draw
deriving DecidableEq, Repr

/-- `GameState` from `types/game.ts`. -/
structure GameState where
  board : Board
  currentPlayer : Player
  winner : Option Player
  isDraw : Bool
  isGameOver : Bool
  moveCount : Nat
  status : GameStatus
  winningLine : Option (List Position)
deriving DecidableEq

/-- `createEmptyBoard` from `game-logic.ts`. -/
def createEmptyBoard : Board := fun _ _ => none

/-- `createInitialGameState` from `game-logic.ts`. -/
def createInitialGameState : GameState :=
  { board := createEmptyBoard
    currentPlayer := .red
    winner := none
    isDraw := false
    isGameOver := false
    moveCount := 0
    status := .waiting
    winningLine := none }

/-- `isValidMove` from `game-logic.ts`: `col >= 0 && col < COLS &&
board[0][col] === null` (columns are modelled as `Nat`, so `col >= 0` is
implicit). -/
def isValidMove (b : Board) (col : Nat) : Bool :=
  decide (col < COLS) && (cell b 0 col).isNone

/-- `getValidMoves` from `game-logic.ts`: the columns `0..6` for which
`isValidMove` holds, in ascending order. -/
def getValidMoves (b : Board) : List Nat :=
  (List.range COLS).filter (fun col => isValidMove b col)

/-- The row scan order `[5, 4, 3, 2, 1, 0]`, from
`Array.from({length: ROWS}, (_, i) => ROWS - 1 - i)` in `makeMove`. -/
def rowScan : List Nat := (List.range ROWS).map (fun i => ROWS - 1 - i)

/-- The other player, `gameState.currentPlayer === 'red' ? 'yellow' : 'red'`. -/
def flipPlayer (p : Player) : Player :=
  match p with
  | .red => .yellow
  | .yellow => .red

/-- The four scan directions of `checkWin`, in source order: horizontal,
vertical, diagonal down-right, diagonal down-left. -/
def directions : List (Int × Int) := [(0, 1), (1, 0), (1, 1), (1, -1)]

/-- Board access at signed indices with the bounds check of `checkWin`
(`r < 0 || r >= ROWS || c < 0 || c >= COLS` fails the scan). -/
def cellI (b : Board) (r c : Int) : Option Player :=
  if 0 ≤ r ∧ r < 6 ∧ 0 ≤ c ∧ c < 7 then cell b r.toNat c.toNat else none

/-- One scan loop of `checkWin`: starting at `(r, c)` and stepping by
`(dr, dc)`, collect up to `k` consecutive positions holding `p`, stopping at
the first out-of-bounds or differently-coloured cell. -/
def extendLine (b : Board) (p : Player) (r c dr dc : Int) : Nat → List Position
  | 0 => []
  | k + 1 =>
    if cellI b r c = some p then
      ⟨r.toNat, c.toNat⟩ :: extendLine b p (r + dr) (c + dc) dr dc k
    else []

/-- The forward arm of a direction scan (`i = 1 .. WINNING_LENGTH - 1`). -/
def forwardArm (b : Board) (p : Player) (pos : Position) (d : Int × Int) : List Position :=
  extendLine b p ((pos.row : Int) + d.1) ((pos.col : Int) + d.2) d.1 d.2 (WINNING_LENGTH - 1)

/-- The backward arm of a direction scan, in the order the cells are
discovered (nearest to `pos` first; `checkWin` unshifts them). -/
def backwardArm (b : Board) (p : Player) (pos : Position) (d : Int × Int) : List Position :=
  extendLine b p ((pos.row : Int) - d.1) ((pos.col : Int) - d.2) (-d.1) (-d.2) (WINNING_LENGTH - 1)

/-- The `count` accumulated by `checkWin` for one direction: `1` for the
placed cell plus both arms. -/
def dirCount (b : Board) (p : Player) (pos : Position) (d : Int × Int) : Nat :=
  1 + (forwardArm b p pos d).length + (backwardArm b p pos d).length

/-- The `line` built by `checkWin` for one direction: backward cells
(unshifted, hence reversed), the placed cell, then forward cells. -/
def dirLine (b : Board) (p : Player) (pos : Position) (d : Int × Int) : List Position :=
  (backwardArm b p pos d).reverse ++ pos :: forwardArm b p pos d

/-- `checkWin` from `game-logic.ts`: scan the four directions through
`lastMove` in order and report the first whose count reaches
`WINNING_LENGTH`. -/
def checkWin (b : Board) (lastMove : Position) : Bool × Option (List Position) :=
  match cell b lastMove.row lastMove.col with
  | none => (false, none)
  | some p =>
    match directions.find? (fun d => decide (WINNING_LENGTH ≤ dirCount b p lastMove d)) with
    | some d => (true, some (dirLine b p lastMove d))
    | none => (false, none)

/-- `makeMove` from `game-logic.ts`: validate, gravity-drop the current
player's piece, run win/draw detection, and build the successor state.
Returns the unchanged state and `none` when the move is invalid. -/
def makeMove (s : GameState) (col : Nat) : GameState × Option Position :=
  if isValidMove s.board col = false then (s, none)
  else
    match rowScan.find? (fun r => (cell s.board r col).isNone) with
    | none => (s, none)
    | some row =>
      let nb := setCell s.board row col s.currentPlayer
      let pos : Position := ⟨row, col⟩
      let wr := checkWin nb pos
      let draw := !wr.1 && (getValidMoves nb).isEmpty
      ({ board := nb
         currentPlayer := flipPlayer s.currentPlayer
         winner := if wr.1 then some s.currentPlayer else none
         isDraw := draw
         isGameOver := wr.1 || draw
         moveCount := s.moveCount + 1
         status := if wr.1 then .won else if draw then .draw else .playing
         winningLine := wr.2 }, some pos)

/-- The move-rejection kinds of the specification's `applyMove`
(`GameService.validateMove` throws distinct validation errors). -/
inductive MoveError where
  | invalidColumn
  | columnFull
  | gameAlreadyOver
deriving DecidableEq, Repr

/-- The specification-level `applyMove`: the validation performed by
`GameService.validateMove` (terminal-state check first, then column
validity) composed with `makeMove`. The final branch mapping a failed
`makeMove` to `columnFull` is unreachable for a validated column. -/
def applyMove (s : GameState) (col : Nat) : Except MoveError (GameState × Position) :=
  if s.isGameOver = true then .error .gameAlreadyOver
  else if COLS ≤ col then .error .invalidColumn
  else if (cell s.board 0 col).isNone = false then .error .columnFull
  else
    match makeMove s col with
    | (s', some p) => .ok (s', p)
    | (_, none) => .error .columnFull

/-- States reachable from `createInitialGameState` through `makeMove`
(a rejected move leaves the state unchanged, so including it is harmless). -/
inductive Reachable : GameState → Prop where
  | init : Reachable createInitialGameState
  | step {s : GameState} (col : Nat) : Reachable s → Reachable (makeMove s col).1

/-- Number of cells of colour `p` on the board. -/
def countColor (b : Board) (p : Player) : Nat :=
  (Finset.univ.filter (fun rc : Fin 6 × Fin 7 => b rc.1 rc.2 = some p)).card

/-- JavaScript numbers as used by the AI search: integers extended with the
`-Infinity` (`⊥`) and `Infinity` (`⊤`) sentinels of `ai-service.ts`. -/
abbrev Score : Type := WithBot (WithTop Int)

/-- A finite score. -/
def sInt (n : Int) : Score := ((n : WithTop Int) : Score)

/-- The AI difficulty levels of `ai-service.ts`. -/
inductive AIDifficulty where
  | easy
  | medium
  | hard
deriving DecidableEq, Repr

/-- `AIService.evaluateLine`: score one 4-cell window from its colour
counts. -/
def evaluateLine (p1 p2 p3 p4 : Option Player) : Int :=
  let line := [p1, p2, p3, p4]
  let yellowCount := (line.filter (fun p => p = some .yellow)).length
  let redCount := (line.filter (fun p => p = some .red)).length
  let emptyCount := (line.filter (fun p => p = none)).length
  if yellowCount > 0 ∧ redCount > 0 then 0
  else if yellowCount = 3 ∧ emptyCount = 1 then 50
  else if yellowCount = 2 ∧ emptyCount = 2 then 10
  else if yellowCount = 1 ∧ emptyCount = 3 then 1
  else if redCount = 3 ∧ emptyCount = 1 then -50
  else if redCount = 2 ∧ emptyCount = 2 then -10
  else if redCount = 1 ∧ emptyCount = 3 then -1
  else 0

/-- The center-column loop of `AIService.evaluateBoard`: `+3` per yellow and
`-3` per red piece in column 3. -/
def centerScore (b : Board) : Int :=
  ((List.range ROWS).map (fun row =>
    (if cell b row 3 = some .yellow then 3 else 0) +
    (if cell b row 3 = some .red then -3 else 0))).sum

/-- The window contribution of one `(row, col)` iteration of
`AIService.evaluateBoard`'s nested loops, with the four bounds guards. -/
def windowsAt (b : Board) (row col : Nat) : Int :=
  (if col ≤ COLS - 4 then
    evaluateLine (cell b row col) (cell b row (col + 1))
      (cell b row (col + 2)) (cell b row (col + 3)) else 0) +
  (if row ≤ ROWS - 4 then
    evaluateLine (cell b row col) (cell b (row + 1) col)
      (cell b (row + 2) col) (cell b (row + 3) col) else 0) +
  (if row ≤ ROWS - 4 ∧ col ≤ COLS - 4 then
    evaluateLine (cell b row col) (cell b (row + 1) (col + 1))
      (cell b (row + 2) (col + 2)) (cell b (row + 3) (col + 3)) else 0) +
  (if 3 ≤ row ∧ col ≤ COLS - 4 then
    evaluateLine (cell b row col) (cell b (row - 1) (col + 1))
      (cell b (row - 2) (col + 2)) (cell b (row - 3) (col + 3)) else 0)

/-- `AIService.evaluateBoard`: center-column control plus every 4-cell
window in the four directions. -/
def evaluateBoard (b : Board) : Int :=
  centerScore b +
    ((List.range ROWS).map (fun row =>
      ((List.range COLS).map (fun col => windowsAt b row col)).sum)).sum

/-- The maximizing loop of `AIService.minimax`: fold over the candidate
columns carrying `maxScore` and `alpha`, breaking when `beta <= alpha`.
`recur` is the recursive call at the child state with the current window. -/
def abMax (recur : GameState → Score → Score → Score) (s : GameState) :
    List Nat → Score → Score → Score → Score
  | [], m, _, _ => m
  | c :: cs, m, a, b =>
    match makeMove s c with
    | (_, none) => abMax recur s cs m a b
    | (s', some _) =>
      let sc := recur s' a b
      let m' := max m sc
      let a' := max a sc
      if b ≤ a' then m' else abMax recur s cs m' a' b

/-- The minimizing loop of `AIService.minimax`, dual to `abMax`. -/
def abMin (recur : GameState → Score → Score → Score) (s : GameState) :
    List Nat → Score → Score → Score → Score
  | [], m, _, _ => m
  | c :: cs, m, a, b =>
    match makeMove s c with
    | (_, none) => abMin recur s cs m a b
    | (s', some _) =>
      let sc := recur s' a b
      let m' := min m sc
      let b' := min b sc
      if b' ≤ a then m' else abMin recur s cs m' a b'

/-- `AIService.minimax`: alpha-beta search. Terminal states score
`±(1000 + depth)`; draws and exhausted depth score the static evaluation. -/
def minimax : Nat → GameState → Bool → Score → Score → Score
  | depth, s, isMaximizing, alpha, beta =>
    if s.winner = some .yellow then sInt (1000 + depth)
    else if s.winner = some .red then sInt (-1000 - depth)
    else if s.isDraw = true then sInt (evaluateBoard s.board)
    else
      match depth with
      | 0 => sInt (evaluateBoard s.board)
      | d + 1 =>
        if isMaximizing then
          abMax (fun s' a b => minimax d s' false a b) s (getValidMoves s.board) ⊥ alpha beta
        else
          abMin (fun s' a b => minimax d s' true a b) s (getValidMoves s.board) ⊤ alpha beta

/-- Exhaustive full-width minimax, modelled from the spec's Scenario E
contrast: identical terminal scoring, but every valid move is evaluated and
the plain max/min is taken — no alpha-beta window, no pruning. -/
def fullMinimax : Nat → GameState → Bool → Score
  | depth, s, isMaximizing =>
    if s.winner = some .yellow then sInt (1000 + depth)
    else if s.winner = some .red then sInt (-1000 - depth)
    else if s.isDraw = true then sInt (evaluateBoard s.board)
    else
      match depth with
      | 0 => sInt (evaluateBoard s.board)
      | d + 1 =>
        if isMaximizing then
          ((getValidMoves s.board).map
            (fun c => fullMinimax d (makeMove s c).1 false)).foldr max ⊥
        else
          ((getValidMoves s.board).map
            (fun c => fullMinimax d (makeMove s c).1 true)).foldr min ⊤

/-- JavaScript numbers as used for the reported confidence: rationals
extended with the infinities (`bestMove.score / 100` can be `-Infinity`). -/
abbrev Confidence : Type := WithBot (WithTop Rat)

/-- A finite confidence value. -/
def confVal (q : Rat) : Confidence := ((q : WithTop Rat) : Confidence)

/-- `bestMove.score / 100` on extended numbers. -/
def scoreDiv100 (s : Score) : Confidence :=
  Option.map (Option.map (fun n : Int => (n : Rat) / 100)) s

/-- The `reasoning` strings produced by `AIService`, as tags. -/
inductive MoveReason where
  | winningMove
  | blockingWin
  | centerColumn
  | randomValid
  | creatingOpportunity
  | strongStrategic
  | goodPositional
  | developingMove
deriving DecidableEq, Repr

/-- `AIMoveResult` from `ai-service.ts`. -/
structure AIMoveResult where
  column : Nat
  confidence : Confidence
  reasoning : MoveReason
deriving DecidableEq, Repr

/-- `AIMoveEvaluation` from `ai-service.ts`. -/
structure AIMoveEvaluation where
  column : Nat
  score : Score
  canWin : Bool
  blocksWin : Bool
  createsOpportunity : Bool
deriving DecidableEq

/-- The center-outward column preference `[3, 2, 4, 1, 5, 0, 6]`. -/
def centerPreference : List Nat := [3, 2, 4, 1, 5, 0, 6]

/-- Does playing `col` win for yellow (`testMove.gameState.winner ===
'yellow'`)? -/
def winsForYellow (s : GameState) (col : Nat) : Bool :=
  decide ((makeMove s col).1.winner = some Player.yellow)

/-- `AIService.checkIfBlocksWin`: would the opponent win by playing `col`
(simulated by switching `currentPlayer` to red)? -/
def checkIfBlocksWin (s : GameState) (col : Nat) : Bool :=
  decide ((makeMove { s with currentPlayer := .red } col).1.winner = some Player.red)

/-- `AIService.isWinningOpportunity`: at least two of ours, at least one
empty, none of the opponent's in the window. -/
def isWinningOpportunity (p1 p2 p3 p4 : Option Player) (player : Player) : Bool :=
  let line := [p1, p2, p3, p4]
  let playerCount := (line.filter (fun p => p = some player)).length
  let emptyCount := (line.filter (fun p => p = none)).length
  let opponentCount := (line.filter (fun p => p ≠ some player ∧ p ≠ none)).length
  decide (2 ≤ playerCount ∧ 1 ≤ emptyCount ∧ opponentCount = 0)

/-- `AIService.countWinningOpportunities`: count the horizontal and vertical
windows that are opportunities for `player`. -/
def countWinningOpportunities (s : GameState) (player : Player) : Nat :=
  ((List.range ROWS).map (fun row =>
    ((List.range COLS).map (fun col =>
      (if col ≤ COLS - 4 ∧
          isWinningOpportunity (cell s.board row col) (cell s.board row (col + 1))
            (cell s.board row (col + 2)) (cell s.board row (col + 3)) player = true
        then 1 else 0) +
      (if row ≤ ROWS - 4 ∧
          isWinningOpportunity (cell s.board row col) (cell s.board (row + 1) col)
            (cell s.board (row + 2) col) (cell s.board (row + 3) col) player = true
        then 1 else 0))).sum)).sum

/-- `AIService.checkIfCreatesOpportunity`: two or more open winning lines
for yellow after the move. -/
def checkIfCreatesOpportunity (s : GameState) : Bool :=
  decide (2 ≤ countWinningOpportunities s .yellow)

/-- `AIService.getEasyMove`: the ordered heuristic cascade — win, block,
center preference, first valid column. -/
def getEasyMove (s : GameState) (validMoves : List Nat) : AIMoveResult :=
  match validMoves.find? (fun col => winsForYellow s col) with
  | some col => { column := col, confidence := confVal 1, reasoning := .winningMove }
  | none =>
    match validMoves.find? (fun col => checkIfBlocksWin s col) with
    | some col => { column := col, confidence := confVal (9 / 10), reasoning := .blockingWin }
    | none =>
      match centerPreference.find? (fun col => validMoves.contains col) with
      | some col => { column := col, confidence := confVal (1 / 2), reasoning := .centerColumn }
      | none =>
        { column := validMoves.headD 0, confidence := confVal (3 / 10), reasoning := .randomValid }

/-- The root loop of `AIService.minimaxMove`: each candidate column is
scored by `minimax` at `depth - 1` with a fresh full window, and `bestMove`
is replaced only on a strictly greater score. -/
def rootLoop (s : GameState) (d : Nat) : List Nat → AIMoveEvaluation → AIMoveEvaluation
  | [], best => best
  | c :: cs, best =>
    match makeMove s c with
    | (_, none) => rootLoop s d cs best
    | (s', some _) =>
      let sc := minimax d s' false ⊥ ⊤
      if best.score < sc then
        rootLoop s d cs
          { column := c, score := sc
            canWin := decide (s'.winner = some Player.yellow)
            blocksWin := checkIfBlocksWin s c
            createsOpportunity := checkIfCreatesOpportunity s' }
      else rootLoop s d cs best

/-- `AIService.minimaxMove`: scan the valid columns from a `-Infinity`
sentinel seeded with the first valid column. -/
def minimaxMove (s : GameState) (depth : Nat) : AIMoveEvaluation :=
  rootLoop s (depth - 1) (getValidMoves s.board)
    { column := (getValidMoves s.board).headD 0, score := ⊥
      canWin := false, blocksWin := false, createsOpportunity := false }

/-- The root loop rescored with exhaustive full-width minimax, modelled from
the spec's Scenario E contrast; identical tie-breaking (first strict
maximum). -/
def fullRootLoop (s : GameState) (d : Nat) : List Nat → AIMoveEvaluation → AIMoveEvaluation
  | [], best => best
  | c :: cs, best =>
    match makeMove s c with
    | (_, none) => fullRootLoop s d cs best
    | (s', some _) =>
      let sc := fullMinimax d s' false
      if best.score < sc then
        fullRootLoop s d cs
          { column := c, score := sc
            canWin := decide (s'.winner = some Player.yellow)
            blocksWin := checkIfBlocksWin s c
            createsOpportunity := checkIfCreatesOpportunity s' }
      else fullRootLoop s d cs best

/-- `minimaxMove` driven by `fullMinimax` instead of alpha-beta search. -/
def fullMinimaxMove (s : GameState) (depth : Nat) : AIMoveEvaluation :=
  fullRootLoop s (depth - 1) (getValidMoves s.board)
    { column := (getValidMoves s.board).headD 0, score := ⊥
      canWin := false, blocksWin := false, createsOpportunity := false }

/-- The search depth picked by `AIService.getBestMove` for the minimax
tiers: `difficulty === 'medium' ? 3 : 5`. -/
def searchDepth (d : AIDifficulty) : Nat :=
  if d = .medium then 3 else 5

/-- `AIService.getMoveReasoning`. -/
def getMoveReasoning (e : AIMoveEvaluation) : MoveReason :=
  if e.canWin = true then .winningMove
  else if e.blocksWin = true then .blockingWin
  else if e.createsOpportunity = true then .creatingOpportunity
  else if sInt 50 < e.score then .strongStrategic
  else if sInt 0 < e.score then .goodPositional
  else .developingMove

/-- The AI-side error of `AIService.getBestMove` (`ValidationError('No valid
moves available')`). -/
inductive AIError where
  | noValidMoves
deriving DecidableEq, Repr

/-- `AIService.getBestMove`: reject an empty move list, dispatch the easy
cascade, or run `minimaxMove` at the difficulty's depth. -/
def getBestMove (s : GameState) (difficulty : AIDifficulty) : Except AIError AIMoveResult :=
  let validMoves := getValidMoves s.board
  if validMoves.isEmpty = true then .error .noValidMoves
  else if difficulty = .easy then .ok (getEasyMove s validMoves)
  else
    let bestMove := minimaxMove s (searchDepth difficulty)
    .ok { column := bestMove.column
          confidence := scoreDiv100 bestMove.score
          reasoning := getMoveReasoning bestMove }

/-- Length of the maximal run of colour `p` starting at `(r, c)` and
stepping by `(dr, dc)`, with enough fuel to traverse the whole board. Used
to state the spec's notion of a contiguous run. -/
def runFrom (b : Board) (p : Player) (r c dr dc : Int) : Nat → Nat
  | 0 => 0
  | k + 1 =>
    if cellI b r c = some p then 1 + runFrom b p (r + dr) (c + dc) dr dc k
    else 0

/-- Spec-side: the number of cells of the maximal contiguous run of colour
`p` through `pos` along direction `d` (both arms uncapped; fuel 6 exceeds
any run on a 6×7 board). -/
def runThrough (b : Board) (p : Player) (pos : Position) (d : Int × Int) : Nat :=
  1 + runFrom b p ((pos.row : Int) + d.1) ((pos.col : Int) + d.2) d.1 d.2 6 +
    runFrom b p ((pos.row : Int) - d.1) ((pos.col : Int) - d.2) (-d.1) (-d.2) 6

/-- Spec-side per-window score, from the spec's case list: dead windows
score 0, single-colour windows score by piece count. -/
def specWindowScore (p1 p2 p3 p4 : Option Player) : Int :=
  let w := [p1, p2, p3, p4]
  let ai := (w.filter (fun p => p = some Player.yellow)).length
  let opp := (w.filter (fun p => p = some Player.red)).length
  let empty := (w.filter (fun p => p = none)).length
  if 0 < ai ∧ 0 < opp then 0
  else if ai = 3 ∧ empty = 1 then 50
  else if ai = 2 ∧ empty = 2 then 10
  else if ai = 1 ∧ empty = 3 then 1
  else if opp = 3 ∧ empty = 1 then -50
  else if opp = 2 ∧ empty = 2 then -10
  else if opp = 1 ∧ empty = 3 then -1
  else 0

/-- Spec-side center bonus: `+3` per AI piece and `-3` per opponent piece in
column 3, independent of windows. -/
def specCenterBonus (b : Board) : Int :=
  3 * ((List.range ROWS).filter (fun r => cell b r 3 = some Player.yellow)).length -
    3 * ((List.range ROWS).filter (fun r => cell b r 3 = some Player.red)).length

/-- Spec-side static evaluation: the sum of `specWindowScore` over every
length-4 window in the four directions plus the center bonus. -/
def specEvaluateBoard (b : Board) : Int :=
  (((List.range ROWS).map (fun row =>
    ((List.range COLS).map (fun col =>
      (if col ≤ COLS - 4 then
        specWindowScore (cell b row col) (cell b row (col + 1))
          (cell b row (col + 2)) (cell b row (col + 3)) else 0) +
      (if row ≤ ROWS - 4 then
        specWindowScore (cell b row col) (cell b (row + 1) col)
          (cell b (row + 2) col) (cell b (row + 3) col) else 0) +
      (if row ≤ ROWS - 4 ∧ col ≤ COLS - 4 then
        specWindowScore (cell b row col) (cell b (row + 1) (col + 1))
          (cell b (row + 2) (col + 2)) (cell b (row + 3) (col + 3)) else 0) +
      (if 3 ≤ row ∧ col ≤ COLS - 4 then
        specWindowScore (cell b row col) (cell b (row - 1) (col + 1))
          (cell b (row - 2) (col + 2)) (cell b (row - 3) (col + 3)) else 0))).sum)).sum) +
    specCenterBonus b

/-- A concrete terminal state used as a witness input. -/
def terminalState : GameState :=
  { createInitialGameState with isGameOver := true, winner := some .red, status := .won }

/-- C3: once `isGameOver` is true, `applyMove` rejects every column with
`GameAlreadyOver` and produces no new state. -/
theorem applyMove_rejects_terminal (s : GameState) (col : Nat)
    (h : s.isGameOver = true) :
    applyMove s col = Except.error MoveError.gameAlreadyOver := by
  simp [applyMove, h]

/-- Witness for C3 at a concrete terminal state and column. -/
theorem applyMove_rejects_terminal_witness :
    terminalState.isGameOver = true ∧
    applyMove terminalState 3 = Except.error MoveError.gameAlreadyOver :=
  ⟨rfl, applyMove_rejects_terminal terminalState 3 rfl⟩

/-- C5: the minimax recursion scores a yellow (AI) win as `1000 + depth`, a
red win as `-1000 - depth`, and a draw or exhausted depth as the static
evaluation; the search depth is 3 for medium and 5 for hard. -/
theorem minimax_terminal_scoring :
    (∀ (d : Nat) (s : GameState) (isMax : Bool) (a b : Score),
      (s.winner = some Player.yellow → minimax d s isMax a b = sInt (1000 + d)) ∧
      (s.winner = some Player.red → minimax d s isMax a b = sInt (-1000 - d)) ∧
      (s.winner = none → s.isDraw = true ∨ d = 0 →
        minimax d s isMax a b = sInt (evaluateBoard s.board))) ∧
    searchDepth .medium = 3 ∧ searchDepth .hard = 5 := by
  refine ⟨fun d s isMax a b => ⟨?_, ?_, ?_⟩, rfl, rfl⟩
  · intro h
    rw [minimax.eq_def]
    simp [h]
  · intro h
    rw [minimax.eq_def]
    simp [h]
  · intro h hd
    rcases hd with hd | hd
    · rw [minimax.eq_def]
      simp [h, hd]
    · subst hd
      rw [minimax.eq_def]
      cases hdraw : s.isDraw <;> simp [h, hdraw]

/-- Witness for C5: a state already won by yellow scores `1000 + depth` at
depth 2. -/
theorem minimax_terminal_scoring_witness :
    ({ createInitialGameState with winner := some .yellow } : GameState).winner
        = some Player.yellow ∧
    minimax 2 { createInitialGameState with winner := some .yellow } true ⊥ ⊤ =
      sInt (1000 + (2 : Nat)) :=
  ⟨rfl, (minimax_terminal_scoring.1 2 _ true ⊥ ⊤).1 rfl⟩


/-- The row scan is the concrete list `[5, 4, 3, 2, 1, 0]`. -/
lemma rowScan_eq : rowScan = [5, 4, 3, 2, 1, 0] := rfl

/-- Reading back the cell just written. -/
lemma cell_setCell_same (b : Board) (r c : Nat) (v : Player) (hr : r < 6) (hc : c < 7) :
    cell (setCell b r c v) r c = some v := by
  simp [cell, setCell, hr, hc]

/-- Writing one cell leaves every other cell unchanged. -/
lemma cell_setCell_other (b : Board) (r c : Nat) (v : Player) (r' c' : Nat)
    (h : ¬(r' = r ∧ c' = c)) :
    cell (setCell b r c v) r' c' = cell b r' c' := by
  unfold cell setCell
  split
  all_goals rfl

/-- What a successful row scan guarantees: the found row is empty, in range,
and every row strictly below it in the column is occupied. -/
lemma rowScan_find_spec (b : Board) (col row : Nat)
    (h : rowScan.find? (fun r => (cell b r col).isNone) = some row) :
    cell b row col = none ∧ row ≤ 5 ∧
      ∀ r', row < r' → r' ≤ 5 → cell b r' col ≠ none := by
  rw [rowScan_eq] at h
  rcases hc5 : cell b 5 col with _ | p5
  · simp [List.find?, hc5] at h
    subst h
    exact ⟨hc5, by omega, fun r' h1 h2 => absurd h1 (by omega)⟩
  · rcases hc4 : cell b 4 col with _ | p4
    · simp [List.find?, hc5, hc4] at h
      subst h
      refine ⟨hc4, by omega, fun r' h1 h2 => ?_⟩
      obtain rfl : r' = 5 := by omega
      simp [hc5]
    · rcases hc3 : cell b 3 col with _ | p3
      · simp [List.find?, hc5, hc4, hc3] at h
        subst h
        refine ⟨hc3, by omega, fun r' h1 h2 => ?_⟩
        interval_cases r' <;> simp [hc4, hc5]
      · rcases hc2 : cell b 2 col with _ | p2
        · simp [List.find?, hc5, hc4, hc3, hc2] at h
          subst h
          refine ⟨hc2, by omega, fun r' h1 h2 => ?_⟩
          interval_cases r' <;> simp [hc3, hc4, hc5]
        · rcases hc1 : cell b 1 col with _ | p1
          · simp [List.find?, hc5, hc4, hc3, hc2, hc1] at h
            subst h
            refine ⟨hc1, by omega, fun r' h1 h2 => ?_⟩
            interval_cases r' <;> simp [hc2, hc3, hc4, hc5]
          · rcases hc0 : cell b 0 col with _ | p0
            · simp [List.find?, hc5, hc4, hc3, hc2, hc1, hc0] at h
              subst h
              refine ⟨hc0, by omega, fun r' h1 h2 => ?_⟩
              interval_cases r' <;> simp [hc1, hc2, hc3, hc4, hc5]
            · simp [List.find?, hc5, hc4, hc3, hc2, hc1, hc0] at h

/-- A column whose top cell is empty always has a droppable row. -/
lemma exists_drop_row (b : Board) (col : Nat) (htop : cell b 0 col = none) :
    ∃ row, rowScan.find? (fun r => (cell b r col).isNone) = some row := by
  cases hf : rowScan.find? (fun r => (cell b r col).isNone) with
  | none =>
    exfalso
    have h0 := List.find?_eq_none.mp hf 0 (by rw [rowScan_eq]; simp)
    rw [htop] at h0
    simp at h0
  | some row => exact ⟨row, rfl⟩

/-- The successor state built by a successful `makeMove`, fully expanded. -/
lemma makeMove_success (s : GameState) (col row : Nat)
    (hvalid : isValidMove s.board col = true)
    (hfind : rowScan.find? (fun r => (cell s.board r col).isNone) = some row) :
    makeMove s col =
      ({ board := setCell s.board row col s.currentPlayer
         currentPlayer := flipPlayer s.currentPlayer
         winner := if (checkWin (setCell s.board row col s.currentPlayer) ⟨row, col⟩).1
           then some s.currentPlayer else none
         isDraw := !(checkWin (setCell s.board row col s.currentPlayer) ⟨row, col⟩).1 &&
           (getValidMoves (setCell s.board row col s.currentPlayer)).isEmpty
         isGameOver := (checkWin (setCell s.board row col s.currentPlayer) ⟨row, col⟩).1 ||
           (!(checkWin (setCell s.board row col s.currentPlayer) ⟨row, col⟩).1 &&
             (getValidMoves (setCell s.board row col s.currentPlayer)).isEmpty)
         moveCount := s.moveCount + 1
         status := if (checkWin (setCell s.board row col s.currentPlayer) ⟨row, col⟩).1 then .won
           else if !(checkWin (setCell s.board row col s.currentPlayer) ⟨row, col⟩).1 &&
             (getValidMoves (setCell s.board row col s.currentPlayer)).isEmpty then .draw
           else .playing
         winningLine := (checkWin (setCell s.board row col s.currentPlayer) ⟨row, col⟩).2 },
       some ⟨row, col⟩) := by
  unfold makeMove
  rw [hvalid, hfind]
  simp

/-- C1: with an open column, `makeMove` drops the current player's piece at
the lowest empty row of that column, changes no other cell, and reports the
landing position. -/
theorem makeMove_gravity (s : GameState) (col : Nat) (hcol : col ≤ 6)
    (htop : cell s.board 0 col = none) :
    ∃ row : Nat,
      (makeMove s col).2 = some ⟨row, col⟩ ∧
      cell s.board row col = none ∧
      (∀ r', row < r' → r' ≤ 5 → cell s.board r' col ≠ none) ∧
      cell (makeMove s col).1.board row col = some s.currentPlayer ∧
      (∀ r' c', ¬(r' = row ∧ c' = col) →
        cell (makeMove s col).1.board r' c' = cell s.board r' c') := by
  have hvalid : isValidMove s.board col = true := by
    unfold isValidMove COLS
    rw [htop]
    simp
    omega
  obtain ⟨row, hfind⟩ := exists_drop_row s.board col htop
  obtain ⟨hempty, hle, hmax⟩ := rowScan_find_spec s.board col row hfind
  have hm := makeMove_success s col row hvalid hfind
  refine ⟨row, ?_, hempty, hmax, ?_, ?_⟩
  · rw [hm]
  · rw [hm]
    exact cell_setCell_same _ _ _ _ (by omega) (by omega)
  · intro r' c' hne
    rw [hm]
    exact cell_setCell_other _ _ _ _ _ _ hne

/-- Witness for C1: dropping into column 2 of the empty initial board lands
at row 5. -/
theorem makeMove_gravity_witness :
    (2 : Nat) ≤ 6 ∧ cell createInitialGameState.board 0 2 = none ∧
    ∃ row : Nat,
      (makeMove createInitialGameState 2).2 = some ⟨row, 2⟩ ∧
      cell createInitialGameState.board row 2 = none ∧
      (∀ r', row < r' → r' ≤ 5 → cell createInitialGameState.board r' 2 ≠ none) ∧
      cell (makeMove createInitialGameState 2).1.board row 2 =
        some createInitialGameState.currentPlayer ∧
      (∀ r' c', ¬(r' = row ∧ c' = 2) →
        cell (makeMove createInitialGameState 2).1.board r' c' =
          cell createInitialGameState.board r' c') :=
  ⟨by decide, by decide, makeMove_gravity createInitialGameState 2 (by decide) (by decide)⟩

/-- The capped scan of `checkWin` collects `min(true run, cap)` cells. -/
lemma extendLine_length_eq_min (b : Board) (p : Player) (dr dc : Int) :
    ∀ (k n : Nat) (r c : Int), k ≤ n →
      (extendLine b p r c dr dc k).length = min (runFrom b p r c dr dc n) k
  | 0, n, r, c, _ => by simp [extendLine]
  | k + 1, 0, r, c, h => absurd h (by omega)
  | k + 1, n + 1, r, c, h => by
    unfold extendLine runFrom
    by_cases hc : cellI b r c = some p
    · rw [if_pos hc, if_pos hc, List.length_cons]
      rw [extendLine_length_eq_min b p dr dc k n (r + dr) (c + dc) (by omega)]
      omega
    · rw [if_neg hc, if_neg hc]
      simp

/-- A direction's accumulated count reaches 4 exactly when the uncapped
contiguous run through the placed cell reaches 4. -/
lemma dirCount_ge_iff (b : Board) (p : Player) (pos : Position) (d : Int × Int) :
    4 ≤ dirCount b p pos d ↔ 4 ≤ runThrough b p pos d := by
  unfold dirCount runThrough forwardArm backwardArm
  rw [extendLine_length_eq_min b p d.1 d.2 (WINNING_LENGTH - 1) 6 _ _ (by unfold WINNING_LENGTH; omega)]
  rw [extendLine_length_eq_min b p (-d.1) (-d.2) (WINNING_LENGTH - 1) 6 _ _ (by unfold WINNING_LENGTH; omega)]
  unfold WINNING_LENGTH
  omega

/-- `find?` only depends on the predicate's values on the list. -/
lemma find?_congr {α : Type} (p q : α → Bool) :
    ∀ l : List α, (∀ x ∈ l, p x = q x) → l.find? p = l.find? q
  | [], _ => rfl
  | x :: l, h => by
    have hx := h x (by simp)
    cases hq : q x with
    | true =>
      rw [List.find?_cons_of_pos _ (hx.trans hq), List.find?_cons_of_pos _ hq]
    | false =>
      rw [List.find?_cons_of_neg _ (by simp [hx, hq]), List.find?_cons_of_neg _ (by simp [hq])]
      exact find?_congr p q l (fun y hy => h y (by simp [hy]))

/-- `checkWin` written with the spec-side run test, for a non-empty placed
cell. -/
lemma checkWin_eq_spec_find (b : Board) (pos : Position) (p : Player)
    (hp : cell b pos.row pos.col = some p) :
    checkWin b pos =
      match directions.find? (fun d => decide (4 ≤ runThrough b p pos d)) with
      | some d => (true, some (dirLine b p pos d))
      | none => (false, none) := by
  have hck : checkWin b pos =
      match directions.find? (fun d => decide (WINNING_LENGTH ≤ dirCount b p pos d)) with
      | some d => (true, some (dirLine b p pos d))
      | none => (false, none) := by
    unfold checkWin
    rw [hp]
  have hfe : directions.find? (fun d => decide (WINNING_LENGTH ≤ dirCount b p pos d)) =
      directions.find? (fun d => decide (4 ≤ runThrough b p pos d)) := by
    refine find?_congr _ _ directions (fun d _ => ?_)
    rw [decide_eq_decide]
    unfold WINNING_LENGTH
    exact dirCount_ge_iff b p pos d
  rw [hck, hfe]

/-- C2: `checkWin` reports a win exactly when a contiguous run of at least 4
cells of the placed colour passes through `lastMove` in one of the four scan
directions, and the line reported belongs to the first such direction in
scan order. -/
theorem checkWin_iff_run (b : Board) (pos : Position) (p : Player)
    (hp : cell b pos.row pos.col = some p) :
    ((checkWin b pos).1 = true ↔ ∃ d ∈ directions, 4 ≤ runThrough b p pos d) ∧
    (∀ d, directions.find? (fun d => decide (4 ≤ runThrough b p pos d)) = some d →
      (checkWin b pos).2 = some (dirLine b p pos d)) := by
  rw [checkWin_eq_spec_find b pos p hp]
  cases hf : directions.find? (fun d => decide (4 ≤ runThrough b p pos d)) with
  | none =>
    constructor
    · refine iff_of_false (by simp) ?_
      rintro ⟨d, hd, hrun⟩
      have := List.find?_eq_none.mp hf d hd
      simp [hrun] at this
    · intro d hd
      simp at hd
  | some d =>
    constructor
    · refine iff_of_true rfl ⟨d, List.mem_of_find?_eq_some hf, ?_⟩
      have := List.find?_some hf
      simpa using this
    · intro d' hd'
      injection hd' with hd'
      rw [hd']

/-- A board with four red pieces on the bottom row, columns 0..3. -/
def winBoardH : Board := fun r c =>
  if (r : Nat) = 5 ∧ (c : Nat) ≤ 3 then some .red else none

/-- Witness for C2 at a concrete winning board and placed cell. -/
theorem checkWin_iff_run_witness :
    cell winBoardH 5 0 = some Player.red ∧
    (((checkWin winBoardH ⟨5, 0⟩).1 = true ↔
        ∃ d ∈ directions, 4 ≤ runThrough winBoardH .red ⟨5, 0⟩ d) ∧
      (∀ d, directions.find? (fun d => decide (4 ≤ runThrough winBoardH .red ⟨5, 0⟩ d)) = some d →
        (checkWin winBoardH ⟨5, 0⟩).2 = some (dirLine winBoardH .red ⟨5, 0⟩ d))) :=
  ⟨by decide, checkWin_iff_run winBoardH ⟨5, 0⟩ .red (by decide)⟩

/-- One step along direction `(dr, dc)` between consecutive positions. -/
def posStep (dr dc : Int) (q q' : Position) : Prop :=
  (q'.row : Int) = (q.row : Int) + dr ∧ (q'.col : Int) = (q.col : Int) + dc

/-- A successful signed-index read is in bounds and agrees with `cell`. -/
lemma cellI_some (b : Board) (r c : Int) (p : Player) (h : cellI b r c = some p) :
    0 ≤ r ∧ r < 6 ∧ 0 ≤ c ∧ c < 7 ∧ cell b r.toNat c.toNat = some p := by
  unfold cellI at h
  split at h
  · exact ⟨by tauto, by tauto, by tauto, by tauto, h⟩
  · exact absurd h (by simp)

/-- Every collected cell of a scan arm holds the scanned colour. -/
lemma extendLine_cells (b : Board) (p : Player) (dr dc : Int) :
    ∀ (k : Nat) (r c : Int), ∀ q ∈ extendLine b p r c dr dc k,
      cell b q.row q.col = some p
  | 0, r, c => by simp [extendLine]
  | k + 1, r, c => by
    unfold extendLine
    by_cases hc : cellI b r c = some p
    · rw [if_pos hc]
      intro q hq
      rcases List.mem_cons.mp hq with rfl | hq
      · exact (cellI_some b r c p hc).2.2.2.2
      · exact extendLine_cells b p dr dc k (r + dr) (c + dc) q hq
    · rw [if_neg hc]
      simp

/-- A scan arm is a chain along its direction, starting at its start cell. -/
lemma extendLine_chain (b : Board) (p : Player) (dr dc : Int) :
    ∀ (k : Nat) (r c : Int),
      List.Chain' (posStep dr dc) (extendLine b p r c dr dc k) ∧
      (∀ q ∈ (extendLine b p r c dr dc k).head?, (q.row : Int) = r ∧ (q.col : Int) = c)
  | 0, r, c => by simp [extendLine]
  | k + 1, r, c => by
    unfold extendLine
    by_cases hc : cellI b r c = some p
    · rw [if_pos hc]
      obtain ⟨hr0, _, hc0, _, _⟩ := cellI_some b r c p hc
      obtain ⟨ihchain, ihhead⟩ := extendLine_chain b p dr dc k (r + dr) (c + dc)
      constructor
      · refine List.chain'_cons'.mpr ⟨?_, ihchain⟩
        intro q hq
        obtain ⟨hqr, hqc⟩ := ihhead q hq
        exact ⟨by simp [hqr]; omega, by simp [hqc]; omega⟩
      · intro q hq
        simp only [List.head?_cons, Option.mem_def, Option.some.injEq] at hq
        subst hq
        exact ⟨by simp; omega, by simp; omega⟩
    · rw [if_neg hc]
      simp

/-- The reported direction line is a contiguous chain along its direction. -/
lemma dirLine_chain (b : Board) (p : Player) (pos : Position) (d : Int × Int) :
    List.Chain' (posStep d.1 d.2) (dirLine b p pos d) := by
  unfold dirLine backwardArm forwardArm
  obtain ⟨hbchain, hbhead⟩ :=
    extendLine_chain b p (-d.1) (-d.2) (WINNING_LENGTH - 1)
      ((pos.row : Int) - d.1) ((pos.col : Int) - d.2)
  obtain ⟨hfchain, hfhead⟩ :=
    extendLine_chain b p d.1 d.2 (WINNING_LENGTH - 1)
      ((pos.row : Int) + d.1) ((pos.col : Int) + d.2)
  refine List.chain'_append.mpr ⟨?_, ?_, ?_⟩
  · rw [List.chain'_reverse]
    refine hbchain.imp (fun a c h => ?_)
    obtain ⟨h1, h2⟩ := h
    exact ⟨by omega, by omega⟩
  · refine List.chain'_cons'.mpr ⟨?_, hfchain⟩
    intro q hq
    obtain ⟨hqr, hqc⟩ := hfhead q hq
    exact ⟨by omega, by omega⟩
  · intro x hx y hy
    rw [List.getLast?_reverse] at hx
    obtain ⟨hxr, hxc⟩ := hbhead x hx
    simp only [List.head?_cons, Option.mem_def, Option.some.injEq] at hy
    subst hy
    exact ⟨by omega, by omega⟩

/-- Every cell of the reported line holds the placed colour. -/
lemma dirLine_cells (b : Board) (p : Player) (pos : Position) (d : Int × Int)
    (hp : cell b pos.row pos.col = some p) :
    ∀ q ∈ dirLine b p pos d, cell b q.row q.col = some p := by
  unfold dirLine backwardArm forwardArm
  intro q hq
  rcases List.mem_append.mp hq with hq | hq
  · exact extendLine_cells b p (-d.1) (-d.2) _ _ _ q (List.mem_reverse.mp hq)
  · rcases List.mem_cons.mp hq with rfl | hq
    · exact hp
    · exact extendLine_cells b p d.1 d.2 _ _ _ q hq

/-- The reported line has exactly the accumulated count of cells. -/
lemma dirLine_length (b : Board) (p : Player) (pos : Position) (d : Int × Int) :
    (dirLine b p pos d).length = dirCount b p pos d := by
  unfold dirLine dirCount
  simp [List.length_append]
  omega

/-- A scan arm never exceeds its cap. -/
lemma extendLine_length_le (b : Board) (p : Player) (dr dc : Int) (k : Nat) (r c : Int) :
    (extendLine b p r c dr dc k).length ≤ k := by
  rw [extendLine_length_eq_min b p dr dc k k r c (le_refl k)]
  omega

/-- Unfolding the validity test. -/
lemma isValidMove_iff (b : Board) (col : Nat) :
    isValidMove b col = true ↔ col < 7 ∧ cell b 0 col = none := by
  unfold isValidMove COLS
  simp [Option.isNone_iff_eq_none]

/-- A direction count is at most 7 (1 plus two arms of at most 3 cells). -/
lemma dirCount_le_seven (b : Board) (p : Player) (pos : Position) (d : Int × Int) :
    dirCount b p pos d ≤ 7 := by
  unfold dirCount forwardArm backwardArm WINNING_LENGTH
  have h1 := extendLine_length_le b p d.1 d.2 (WINNING_LENGTH - 1)
    ((pos.row : Int) + d.1) ((pos.col : Int) + d.2)
  have h2 := extendLine_length_le b p (-d.1) (-d.2) (WINNING_LENGTH - 1)
    ((pos.row : Int) - d.1) ((pos.col : Int) - d.2)
  unfold WINNING_LENGTH at h1 h2
  omega

/-- C4 (amended): in any state produced by a successful `makeMove`,
`winningLine` is present exactly when `winner` is, every reported position
holds the winner's colour, and the line is a contiguous run of 4 to 7 cells
along one of the four directions (the code does not truncate longer runs). -/
theorem makeMove_winningLine (s : GameState) (col : Nat) (s' : GameState) (p : Position)
    (h : makeMove s col = (s', some p)) :
    (s'.winner = none ↔ s'.winningLine = none) ∧
    ∀ L, s'.winningLine = some L →
      ∃ w, s'.winner = some w ∧
        (∀ q ∈ L, cell s'.board q.row q.col = some w) ∧
        4 ≤ L.length ∧ L.length ≤ 7 ∧
        ∃ d ∈ directions, List.Chain' (posStep d.1 d.2) L := by
  cases hv : isValidMove s.board col with
  | false =>
    unfold makeMove at h
    rw [hv] at h
    simp at h
  | true =>
    cases hf : rowScan.find? (fun r => (cell s.board r col).isNone) with
    | none =>
      unfold makeMove at h
      rw [hv, hf] at h
      simp at h
    | some row =>
      have hm := makeMove_success s col row hv hf
      rw [hm] at h
      injection h with h1 h2
      have hrow : row ≤ 5 := (rowScan_find_spec s.board col row hf).2.1
      have hcol : col < 7 := ((isValidMove_iff s.board col).mp hv).1
      have hcellp : cell (setCell s.board row col s.currentPlayer) row col
          = some s.currentPlayer :=
        cell_setCell_same s.board row col s.currentPlayer (by omega) hcol
      have hck := checkWin_eq_spec_find (setCell s.board row col s.currentPlayer)
        ⟨row, col⟩ s.currentPlayer hcellp
      cases hfd : directions.find?
          (fun d => decide (4 ≤ runThrough (setCell s.board row col s.currentPlayer)
            s.currentPlayer ⟨row, col⟩ d)) with
      | none =>
        rw [hfd] at hck
        subst h1
        constructor
        · simp [hck]
        · intro L hL
          simp [hck] at hL
      | some d =>
        rw [hfd] at hck
        subst h1
        constructor
        · simp [hck]
        · intro L hL
          simp only [hck] at hL ⊢
          injection hL with hL
          subst hL
          refine ⟨s.currentPlayer, by simp, ?_, ?_, ?_, ?_⟩
          · exact dirLine_cells _ _ _ _ hcellp
          · rw [dirLine_length]
            have hpred := List.find?_some hfd
            simp only [decide_eq_true_eq] at hpred
            exact (dirCount_ge_iff _ _ _ _).mpr hpred
          · rw [dirLine_length]
            exact dirCount_le_seven _ _ _ _
          · exact ⟨d, List.mem_of_find?_eq_some hfd, dirLine_chain _ _ _ _⟩

/-- A board where red pieces sit at row 5, columns 0, 1, 3, 4, with a gap at
column 2 (yellow's replies stacked on rows 4). -/
def gapBoard : Board := fun r c =>
  if (r : Nat) = 5 ∧ ((c : Nat) = 0 ∨ (c : Nat) = 1 ∨ (c : Nat) = 3 ∨ (c : Nat) = 4)
    then some .red
  else if (r : Nat) = 4 ∧ ((c : Nat) = 0 ∨ (c : Nat) = 1 ∨ (c : Nat) = 3)
    then some .yellow
  else none

/-- The state about to complete red's double-open four at column 2. -/
def gapState : GameState :=
  { createInitialGameState with
    board := gapBoard
    currentPlayer := .red
    status := .playing
    moveCount := 7 }

/-- Counterexample to C4 as stated: filling the gap reports a winning line
of five positions, not exactly four — the detected run is not truncated. -/
theorem makeMove_winningLine_counterexample :
    (makeMove gapState 2).1.winner = some Player.red ∧
    (makeMove gapState 2).1.winningLine =
      some [⟨5, 0⟩, ⟨5, 1⟩, ⟨5, 2⟩, ⟨5, 3⟩, ⟨5, 4⟩] ∧
    ([(⟨5, 0⟩ : Position), ⟨5, 1⟩, ⟨5, 2⟩, ⟨5, 3⟩, ⟨5, 4⟩].length = 5) := by
  refine ⟨by decide, by decide, by decide⟩

/-- Witness for the amended C4 at a concrete successful move. -/
theorem makeMove_winningLine_witness :
    makeMove gapState 2 = ((makeMove gapState 2).1, some ⟨5, 2⟩) ∧
    (((makeMove gapState 2).1.winner = none ↔ (makeMove gapState 2).1.winningLine = none) ∧
      ∀ L, (makeMove gapState 2).1.winningLine = some L →
        ∃ w, (makeMove gapState 2).1.winner = some w ∧
          (∀ q ∈ L, cell (makeMove gapState 2).1.board q.row q.col = some w) ∧
          4 ≤ L.length ∧ L.length ≤ 7 ∧
          ∃ d ∈ directions, List.Chain' (posStep d.1 d.2) L) :=
  ⟨by decide, makeMove_winningLine gapState 2 (makeMove gapState 2).1 ⟨5, 2⟩ (by decide)⟩

/-- Placing a piece on an empty in-range cell adds exactly one cell of its
colour and none of the other. -/
lemma countColor_setCell (b : Board) (r c : Nat) (v : Player) (hr : r < 6) (hc : c < 7)
    (hempty : cell b r c = none) (q : Player) :
    countColor (setCell b r c v) q = countColor b q + (if q = v then 1 else 0) := by
  classical
  have hb0 : b ⟨r, hr⟩ ⟨c, hc⟩ = none := by
    unfold cell at hempty
    rw [dif_pos (⟨hr, hc⟩ : r < 6 ∧ c < 7)] at hempty
    exact hempty
  unfold countColor setCell
  by_cases hqv : q = v
  · subst hqv
    have hset : (Finset.univ.filter (fun rc : Fin 6 × Fin 7 =>
        (if (rc.1 : Nat) = r ∧ (rc.2 : Nat) = c then some q else b rc.1 rc.2) = some q)) =
        insert (⟨⟨r, hr⟩, ⟨c, hc⟩⟩ : Fin 6 × Fin 7)
          (Finset.univ.filter (fun rc : Fin 6 × Fin 7 => b rc.1 rc.2 = some q)) := by
      ext x
      simp only [Finset.mem_filter, Finset.mem_insert, Finset.mem_univ, true_and]
      constructor
      · intro hx
        by_cases hx0 : (x.1 : Nat) = r ∧ (x.2 : Nat) = c
        · exact Or.inl (Prod.ext (Fin.ext hx0.1) (Fin.ext hx0.2))
        · exact Or.inr (by rwa [if_neg hx0] at hx)
      · rintro (rfl | hx)
        · simp
        · by_cases hx0 : (x.1 : Nat) = r ∧ (x.2 : Nat) = c
          · exfalso
            have hxx : x = (⟨⟨r, hr⟩, ⟨c, hc⟩⟩ : Fin 6 × Fin 7) :=
              Prod.ext (Fin.ext hx0.1) (Fin.ext hx0.2)
            rw [hxx, hb0] at hx
            exact Option.noConfusion hx
          · rw [if_neg hx0]
            exact hx
    rw [hset, Finset.card_insert_of_not_mem (by simp [hb0]), if_pos rfl]
  · rw [if_neg hqv, Nat.add_zero]
    congr 1
    refine Finset.filter_congr (fun x _ => ?_)
    by_cases hx0 : (x.1 : Nat) = r ∧ (x.2 : Nat) = c
    · rw [if_pos hx0]
      have hxx : x = (⟨⟨r, hr⟩, ⟨c, hc⟩⟩ : Fin 6 × Fin 7) :=
        Prod.ext (Fin.ext hx0.1) (Fin.ext hx0.2)
      rw [hxx, hb0]
      refine iff_of_false ?_ (by simp)
      simp only [Option.some.injEq]
      exact fun h => hqv h.symm
    · rw [if_neg hx0]

/-- A rejected move leaves the state unchanged. -/
lemma makeMove_invalid (s : GameState) (col : Nat)
    (hv : isValidMove s.board col = false) : makeMove s col = (s, none) := by
  unfold makeMove
  rw [hv]
  simp

/-- Turn alternation: in every reachable state, red is to move with equal
counts, or yellow is to move with red one ahead. -/
lemma reachable_alternation (s : GameState) (hs : Reachable s) :
    (s.currentPlayer = .red ∧ countColor s.board .red = countColor s.board .yellow) ∨
    (s.currentPlayer = .yellow ∧
      countColor s.board .red = countColor s.board .yellow + 1) := by
  induction hs with
  | init => exact Or.inl ⟨rfl, by decide⟩
  | step col hs ih =>
    rename_i t
    cases hv : isValidMove t.board col with
    | false => rw [makeMove_invalid t col hv]; exact ih
    | true =>
      cases hfind : rowScan.find? (fun r => (cell t.board r col).isNone) with
      | none =>
        have hnone : makeMove t col = (t, none) := by
          unfold makeMove
          rw [hv, hfind]
          simp
        rw [hnone]
        exact ih
      | some row =>
        have hm := makeMove_success t col row hv hfind
        rw [hm]
        obtain ⟨hempty, hrow, _⟩ := rowScan_find_spec t.board col row hfind
        have hcol : col < 7 := ((isValidMove_iff t.board col).mp hv).1
        have hcr := countColor_setCell t.board row col t.currentPlayer (by omega) hcol hempty .red
        have hcy := countColor_setCell t.board row col t.currentPlayer (by omega) hcol hempty .yellow
        rcases ih with ⟨hcp, hcount⟩ | ⟨hcp, hcount⟩
        · rw [hcp] at hcr hcy ⊢
          refine Or.inr ⟨rfl, ?_⟩
          show countColor (setCell t.board row col Player.red) Player.red =
            countColor (setCell t.board row col Player.red) Player.yellow + 1
          rw [hcr, hcy]
          simp [hcount]
        · rw [hcp] at hcr hcy ⊢
          refine Or.inl ⟨rfl, ?_⟩
          show countColor (setCell t.board row col Player.yellow) Player.red =
            countColor (setCell t.board row col Player.yellow) Player.yellow
          rw [hcr, hcy]
          simp [hcount]

/-- C9: in every reachable state, the red piece count minus the yellow
piece count lies between 0 and 1 — red moves first and turns strictly
alternate. -/
theorem reachable_count_invariant (s : GameState) (hs : Reachable s) :
    (0 : Int) ≤ (countColor s.board .red : Int) - (countColor s.board .yellow : Int) ∧
    (countColor s.board .red : Int) - (countColor s.board .yellow : Int) ≤ 1 := by
  rcases reachable_alternation s hs with ⟨_, h⟩ | ⟨_, h⟩ <;> constructor <;> omega

/-- Witness for C9 at the initial state. -/
theorem reachable_count_invariant_witness :
    Reachable createInitialGameState ∧
    ((0 : Int) ≤ (countColor createInitialGameState.board .red : Int) -
        (countColor createInitialGameState.board .yellow : Int) ∧
      (countColor createInitialGameState.board .red : Int) -
        (countColor createInitialGameState.board .yellow : Int) ≤ 1) :=
  ⟨Reachable.init, reachable_count_invariant _ Reachable.init⟩

/-- The code's per-window scorer agrees with the spec's count-based case
list on all 81 possible windows. -/
lemma evaluateLine_eq_specWindowScore :
    ∀ p1 p2 p3 p4 : Option Player,
      evaluateLine p1 p2 p3 p4 = specWindowScore p1 p2 p3 p4 := by
  decide

/-- The per-row center ifs sum to the count-based center bonus. -/
lemma center_sum_eq (b : Board) : ∀ l : List Nat,
    ((l.map (fun r => (if cell b r 3 = some Player.yellow then (3 : Int) else 0) +
        (if cell b r 3 = some Player.red then (-3 : Int) else 0))).sum)
      = 3 * ((l.filter (fun r => cell b r 3 = some Player.yellow)).length : Int) -
        3 * ((l.filter (fun r => cell b r 3 = some Player.red)).length : Int)
  | [] => by simp
  | a :: l => by
    rcases hc : cell b a 3 with _ | p
    · simp only [List.map_cons, List.sum_cons, hc, List.filter_cons]
      simp [center_sum_eq b l]
    · cases p
      · simp only [List.map_cons, List.sum_cons, hc, List.filter_cons]
        simp [center_sum_eq b l]
        ring
      · simp only [List.map_cons, List.sum_cons, hc, List.filter_cons]
        simp [center_sum_eq b l]
        ring

/-- The center loop equals the spec's center bonus. -/
lemma centerScore_eq_bonus (b : Board) : centerScore b = specCenterBonus b := by
  unfold centerScore specCenterBonus
  exact center_sum_eq b (List.range ROWS)

/-- C8: the static evaluation is the spec formula — the sum of the
count-based per-window scores over every length-4 window in the four
directions, plus the center-column bonus of plus or minus 3 per piece. -/
theorem evaluateBoard_eq_spec (b : Board) : evaluateBoard b = specEvaluateBoard b := by
  unfold evaluateBoard specEvaluateBoard windowsAt
  simp only [evaluateLine_eq_specWindowScore]
  rw [centerScore_eq_bonus]
  ring

/-- C7: the easy AI is the ordered cascade — the first immediately winning
column (confidence 1.0), else the first blocking column (0.9), else the
first valid column in center-outward order 3,2,4,1,5,0,6 (0.5), else the
first valid column (0.3). -/
theorem getEasyMove_cascade (s : GameState) :
    (∀ c, (getValidMoves s.board).find? (fun col => winsForYellow s col) = some c →
      getEasyMove s (getValidMoves s.board) =
        ⟨c, confVal 1, .winningMove⟩) ∧
    ((getValidMoves s.board).find? (fun col => winsForYellow s col) = none →
      ∀ c, (getValidMoves s.board).find? (fun col => checkIfBlocksWin s col) = some c →
        getEasyMove s (getValidMoves s.board) =
          ⟨c, confVal (9 / 10), .blockingWin⟩) ∧
    ((getValidMoves s.board).find? (fun col => winsForYellow s col) = none →
      (getValidMoves s.board).find? (fun col => checkIfBlocksWin s col) = none →
      ∀ c, centerPreference.find? (fun col => (getValidMoves s.board).contains col) = some c →
        getEasyMove s (getValidMoves s.board) =
          ⟨c, confVal (1 / 2), .centerColumn⟩) ∧
    ((getValidMoves s.board).find? (fun col => winsForYellow s col) = none →
      (getValidMoves s.board).find? (fun col => checkIfBlocksWin s col) = none →
      centerPreference.find? (fun col => (getValidMoves s.board).contains col) = none →
      getEasyMove s (getValidMoves s.board) =
        ⟨(getValidMoves s.board).headD 0, confVal (3 / 10), .randomValid⟩) := by
  refine ⟨?_, ?_, ?_, ?_⟩
  · intro c hc
    unfold getEasyMove
    rw [hc]
  · intro h1 c hc
    unfold getEasyMove
    rw [h1, hc]
  · intro h1 h2 c hc
    unfold getEasyMove
    rw [h1, h2, hc]
  · intro h1 h2 h3
    unfold getEasyMove
    rw [h1, h2, h3]

/-- Witness for C7: on the empty board neither a win nor a block exists and
the center column 3 is picked with confidence one half. -/
theorem getEasyMove_cascade_witness :
    (getValidMoves createInitialGameState.board).find?
        (fun col => winsForYellow createInitialGameState col) = none ∧
    (getValidMoves createInitialGameState.board).find?
        (fun col => checkIfBlocksWin createInitialGameState col) = none ∧
    centerPreference.find?
        (fun col => (getValidMoves createInitialGameState.board).contains col) = some 3 ∧
    getEasyMove createInitialGameState (getValidMoves createInitialGameState.board) =
      ⟨3, confVal (1 / 2), .centerColumn⟩ :=
  ⟨by decide, by decide, by decide,
    (getEasyMove_cascade createInitialGameState).2.2.1 (by decide) (by decide) 3 (by decide)⟩

/-- The default head of a non-empty list is its head, hence a member. -/
lemma headD_mem {α : Type} (l : List α) (d : α) (h : l ≠ []) : l.headD d ∈ l := by
  cases l with
  | nil => exact absurd rfl h
  | cons a l => simp

/-- The easy cascade always returns a member of the valid-move list it is
given, when that list is non-empty. -/
lemma getEasyMove_mem (s : GameState) (vm : List Nat) (h : vm ≠ []) :
    (getEasyMove s vm).column ∈ vm := by
  unfold getEasyMove
  cases h1 : vm.find? (fun col => winsForYellow s col) with
  | some c => exact List.mem_of_find?_eq_some h1
  | none =>
    cases h2 : vm.find? (fun col => checkIfBlocksWin s col) with
    | some c => exact List.mem_of_find?_eq_some h2
    | none =>
      cases h3 : centerPreference.find? (fun col => vm.contains col) with
      | some c =>
        have := List.find?_some h3
        simpa using this
      | none => exact headD_mem vm 0 h

/-- The minimax root loop only ever replaces the running best column with a
column from the scanned list. -/
lemma rootLoop_mem (s : GameState) (d : Nat) (vm : List Nat) :
    ∀ (cs : List Nat) (best : AIMoveEvaluation), best.column ∈ vm →
      (∀ c ∈ cs, c ∈ vm) → (rootLoop s d cs best).column ∈ vm
  | [], best, hb, _ => by
    unfold rootLoop
    exact hb
  | c :: cs, best, hb, hcs => by
    unfold rootLoop
    split
    · exact rootLoop_mem s d vm cs best hb (fun x hx => hcs x (by simp [hx]))
    · dsimp only
      split
      · exact rootLoop_mem s d vm cs _ (hcs c (by simp)) (fun x hx => hcs x (by simp [hx]))
      · exact rootLoop_mem s d vm cs best hb (fun x hx => hcs x (by simp [hx]))

/-- `minimaxMove` returns a valid column whenever one exists. -/
lemma minimaxMove_mem (s : GameState) (depth : Nat) (h : getValidMoves s.board ≠ []) :
    (minimaxMove s depth).column ∈ getValidMoves s.board := by
  unfold minimaxMove
  exact rootLoop_mem s (depth - 1) (getValidMoves s.board) (getValidMoves s.board)
    _ (headD_mem _ 0 h) (fun c hc => hc)

/-- C10: at every difficulty, when at least one column is open,
`getBestMove` succeeds and its column is one of `getValidMoves`. -/
theorem getBestMove_valid_column (s : GameState) (difficulty : AIDifficulty)
    (h : getValidMoves s.board ≠ []) :
    ∃ r, getBestMove s difficulty = Except.ok r ∧ r.column ∈ getValidMoves s.board := by
  unfold getBestMove
  have hne : (getValidMoves s.board).isEmpty = false := by
    cases hv : getValidMoves s.board with
    | nil => exact absurd hv h
    | cons a l => rfl
  cases difficulty with
  | easy =>
    refine ⟨getEasyMove s (getValidMoves s.board), ?_, getEasyMove_mem s _ h⟩
    simp [hne]
  | medium =>
    refine ⟨{ column := (minimaxMove s (searchDepth .medium)).column
              confidence := scoreDiv100 (minimaxMove s (searchDepth .medium)).score
              reasoning := getMoveReasoning (minimaxMove s (searchDepth .medium)) }, ?_,
      minimaxMove_mem s (searchDepth .medium) h⟩
    simp [hne]
  | hard =>
    refine ⟨{ column := (minimaxMove s (searchDepth .hard)).column
              confidence := scoreDiv100 (minimaxMove s (searchDepth .hard)).score
              reasoning := getMoveReasoning (minimaxMove s (searchDepth .hard)) }, ?_,
      minimaxMove_mem s (searchDepth .hard) h⟩
    simp [hne]

/-- Witness for C10: the hard AI on the empty opening board picks an open
column. -/
theorem getBestMove_valid_column_witness :
    getValidMoves createInitialGameState.board ≠ [] ∧
    ∃ r, getBestMove createInitialGameState .hard = Except.ok r ∧
      r.column ∈ getValidMoves createInitialGameState.board :=
  ⟨by decide, getBestMove_valid_column createInitialGameState .hard (by decide)⟩

/-- Folding `max` from a larger seed hoists the extra element out. -/
lemma foldr_max_init_comm {α : Type} [LinearOrder α] (x m : α) (l : List α) :
    l.foldr max (max x m) = max x (l.foldr max m) := by
  induction l with
  | nil => rfl
  | cons a l ih =>
    simp only [List.foldr_cons, ih]
    exact max_left_comm a x (l.foldr max m)

/-- The seed is a lower bound of a `max` fold. -/
lemma le_foldr_max {α : Type} [LinearOrder α] (m : α) (l : List α) : m ≤ l.foldr max m := by
  induction l with
  | nil => exact le_refl m
  | cons a l ih => exact le_trans ih (le_max_right a (l.foldr max m))

/-- Folding `min` from a smaller seed hoists the extra element out. -/
lemma foldr_min_init_comm {α : Type} [LinearOrder α] (x m : α) (l : List α) :
    l.foldr min (min x m) = min x (l.foldr min m) := by
  induction l with
  | nil => rfl
  | cons a l ih =>
    simp only [List.foldr_cons, ih]
    exact min_left_comm a x (l.foldr min m)

/-- The seed is an upper bound of a `min` fold. -/
lemma foldr_min_le {α : Type} [LinearOrder α] (m : α) (l : List α) : l.foldr min m ≤ m := by
  induction l with
  | nil => exact le_refl m
  | cons a l ih => exact le_trans (min_le_right a (l.foldr min m)) ih

/-- The fail-soft alpha-beta contract relative to the window `(a, b)`: a
result at most `a` upper-bounds the true value from below, a result at least
`b` lower-bounds it, and a result strictly inside the window is exact. -/
def ABApprox (r v a b : Score) : Prop :=
  (r ≤ a → v ≤ r) ∧ (b ≤ r → r ≤ v) ∧ (a < r → r < b → r = v)

/-- Exact values satisfy the contract for any window. -/
lemma abApprox_of_eq (r v a b : Score) (h : r = v) : ABApprox r v a b :=
  ⟨fun _ => h.ge, fun _ => h.le, fun _ _ => h⟩

/-- A member of a valid-move list yields a landing position. -/
lemma makeMove_pos_of_valid (s : GameState) (c : Nat)
    (h : isValidMove s.board c = true) : (makeMove s c).2 ≠ none := by
  obtain ⟨_, htop⟩ := (isValidMove_iff s.board c).mp h
  obtain ⟨row, hfind⟩ := exists_drop_row s.board c htop
  rw [makeMove_success s c row h hfind]
  simp

/-- Membership in `getValidMoves` means the validity test passes. -/
lemma mem_getValidMoves (b : Board) (c : Nat) (h : c ∈ getValidMoves b) :
    isValidMove b c = true := by
  unfold getValidMoves at h
  exact (List.mem_filter.mp h).2

/-- Contract for the maximizing alpha-beta loop: if every child evaluation
satisfies the window contract against its true value, then the loop result
satisfies the contract against `max` of the seed and the children's true
values, and never drops below the running maximum. -/
lemma abMax_triple (f : GameState → Score → Score → Score) (g : GameState → Score)
    (s : GameState)
    (hf : ∀ (s' : GameState) (a b : Score), a < b → ABApprox (f s' a b) (g s') a b) :
    ∀ (cs : List Nat) (m a b : Score), a < b →
      (∀ c ∈ cs, (makeMove s c).2 ≠ none) →
      m ≤ abMax f s cs m a b ∧
      ABApprox (abMax f s cs m a b)
        ((cs.map (fun c => g (makeMove s c).1)).foldr max m) a b
  | [], m, a, b, _, _ => by
    unfold abMax
    exact ⟨le_refl m, abApprox_of_eq _ _ _ _ rfl⟩
  | c :: cs, m, a, b, hab, hcs => by
    unfold abMax
    split
    · rename_i fst heq
      exact absurd (by rw [heq]) (hcs c (List.mem_cons_self c cs))
    · rename_i s' val heq
      simp only [List.map_cons, List.foldr_cons, heq]
      obtain ⟨hf1, hf2, hf3⟩ := hf s' a b hab
      by_cases hbr : b ≤ max a (f s' a b)
      · rw [if_pos hbr]
        have hscb : b ≤ f s' a b := by
          rcases le_max_iff.mp hbr with h | h
          · exact absurd h (not_le.mpr hab)
          · exact h
        have hsc_le_g : f s' a b ≤ g s' := hf2 hscb
        refine ⟨le_max_left m _, ?_, ?_, ?_⟩
        · intro hra
          exfalso
          have hsc_le_a : f s' a b ≤ a := le_trans (le_max_right m _) hra
          exact absurd (hscb.trans hsc_le_a) (not_le.mpr hab)
        · intro _
          refine max_le ?_ ?_
          · exact le_trans (le_foldr_max m _) (le_max_right _ _)
          · exact le_trans hsc_le_g (le_max_left _ _)
        · intro _ hrb
          exfalso
          exact absurd (lt_of_le_of_lt (hscb.trans (le_max_right m _)) hrb) (lt_irrefl b)
      · rw [if_neg hbr]
        have hab' : max a (f s' a b) < b := not_le.mp hbr
        obtain ⟨ihm, ih1, ih2, ih3⟩ :=
          abMax_triple f g s hf cs (max m (f s' a b)) (max a (f s' a b)) b hab'
            (fun x hx => hcs x (List.mem_cons_of_mem c hx))
        have hF' : (cs.map (fun c => g (makeMove s c).1)).foldr max (max m (f s' a b)) =
            max (f s' a b) ((cs.map (fun c => g (makeMove s c).1)).foldr max m) := by
          rw [max_comm m (f s' a b), foldr_max_init_comm]
        rw [hF'] at ih1 ih2 ih3
        rcases le_or_lt (f s' a b) a with hsca | hasc
        · have ha' : max a (f s' a b) = a := max_eq_left hsca
          rw [ha'] at ihm ih1 ih2 ih3 ⊢
          have hg_le_sc : g s' ≤ f s' a b := hf1 hsca
          refine ⟨le_trans (le_max_left m _) ihm, ?_, ?_, ?_⟩
          · intro hra
            have hF'le := ih1 hra
            refine max_le ?_ ?_
            · exact le_trans (le_trans hg_le_sc (le_max_left _ _)) hF'le
            · exact le_trans (le_max_right (f s' a b) _) hF'le
          · intro hbr2
            have hle := ih2 hbr2
            rcases le_max_iff.mp hle with h | h
            · exfalso
              exact absurd (lt_of_le_of_lt (h.trans hsca) (lt_of_lt_of_le hab hbr2))
                (lt_irrefl _)
            · exact h.trans (le_max_right (g s') _)
          · intro har hrb
            have hr_eq := ih3 har hrb
            have hrF : abMax f s cs (max m (f s' a b)) a b =
                (cs.map (fun c => g (makeMove s c).1)).foldr max m := by
              rcases max_choice (f s' a b)
                  ((cs.map (fun c => g (makeMove s c).1)).foldr max m) with h | h <;>
                rw [h] at hr_eq
              · exact absurd (hr_eq ▸ har) (not_lt.mpr hsca)
              · exact hr_eq
            rw [hrF]
            refine (max_eq_right ?_).symm
            exact le_of_lt (lt_of_le_of_lt (hg_le_sc.trans hsca) (hrF ▸ har))
        · have hscb : f s' a b < b := lt_of_le_of_lt (le_max_right a _) hab'
          have hsc_eq : f s' a b = g s' := hf3 hasc hscb
          have ha' : max a (f s' a b) = f s' a b := max_eq_right (le_of_lt hasc)
          rw [ha'] at ihm ih1 ih2 ih3 ⊢
          refine ⟨le_trans (le_max_left m _) ihm, ?_, ?_, ?_⟩
          · intro hra
            exfalso
            have hsc_le_r : f s' a b ≤ abMax f s cs (max m (f s' a b)) (f s' a b) b :=
              le_trans (le_max_right m _) ihm
            exact absurd (lt_of_lt_of_le hasc (hsc_le_r.trans hra)) (lt_irrefl a)
          · intro hbr2
            rw [← hsc_eq]
            exact ih2 hbr2
          · intro har hrb
            rw [← hsc_eq]
            rcases eq_or_lt_of_le (le_trans (le_max_right m _) ihm) with hreq | hrgt
            · have h1 := ih1 (le_of_eq hreq.symm)
              refine le_antisymm ?_ h1
              rw [← hreq]
              exact le_max_left (f s' a b) _
            · exact ih3 hrgt hrb

/-- Contract for the minimizing alpha-beta loop, dual to `abMax_triple`. -/
lemma abMin_triple (f : GameState → Score → Score → Score) (g : GameState → Score)
    (s : GameState)
    (hf : ∀ (s' : GameState) (a b : Score), a < b → ABApprox (f s' a b) (g s') a b) :
    ∀ (cs : List Nat) (m a b : Score), a < b →
      (∀ c ∈ cs, (makeMove s c).2 ≠ none) →
      abMin f s cs m a b ≤ m ∧
      ABApprox (abMin f s cs m a b)
        ((cs.map (fun c => g (makeMove s c).1)).foldr min m) a b
  | [], m, a, b, _, _ => by
    unfold abMin
    exact ⟨le_refl m, abApprox_of_eq _ _ _ _ rfl⟩
  | c :: cs, m, a, b, hab, hcs => by
    unfold abMin
    split
    · rename_i fst heq
      exact absurd (by rw [heq]) (hcs c (List.mem_cons_self c cs))
    · rename_i s' val heq
      simp only [List.map_cons, List.foldr_cons, heq]
      obtain ⟨hf1, hf2, hf3⟩ := hf s' a b hab
      by_cases hbr : min b (f s' a b) ≤ a
      · rw [if_pos hbr]
        have hsca : f s' a b ≤ a := by
          rcases min_le_iff.mp hbr with h | h
          · exact absurd h (not_le.mpr hab)
          · exact h
        have hg_le_sc : g s' ≤ f s' a b := hf1 hsca
        refine ⟨min_le_left m _, ?_, ?_, ?_⟩
        · intro _
          refine le_min ?_ ?_
          · exact le_trans (min_le_right _ _) (foldr_min_le m _)
          · exact le_trans (min_le_left _ _) hg_le_sc
        · intro hbr2
          exfalso
          have hra : min m (f s' a b) ≤ a := (min_le_right m _).trans hsca
          exact absurd (hbr2.trans hra) (not_le.mpr hab)
        · intro har _
          exfalso
          exact absurd (lt_of_lt_of_le har ((min_le_right m _).trans hsca)) (lt_irrefl a)
      · rw [if_neg hbr]
        have hab' : a < min b (f s' a b) := not_le.mp hbr
        obtain ⟨ihm, ih1, ih2, ih3⟩ :=
          abMin_triple f g s hf cs (min m (f s' a b)) a (min b (f s' a b)) hab'
            (fun x hx => hcs x (List.mem_cons_of_mem c hx))
        have hF' : (cs.map (fun c => g (makeMove s c).1)).foldr min (min m (f s' a b)) =
            min (f s' a b) ((cs.map (fun c => g (makeMove s c).1)).foldr min m) := by
          rw [min_comm m (f s' a b), foldr_min_init_comm]
        rw [hF'] at ih1 ih2 ih3
        rcases le_or_lt b (f s' a b) with hbsc | hscb
        · have hb' : min b (f s' a b) = b := min_eq_left hbsc
          rw [hb'] at ihm ih1 ih2 ih3 ⊢
          have hsc_le_g : f s' a b ≤ g s' := hf2 hbsc
          refine ⟨le_trans ihm (min_le_left m _), ?_, ?_, ?_⟩
          · intro hra
            have hle := ih1 hra
            rcases min_le_iff.mp hle with h | h
            · exfalso
              exact absurd (lt_of_lt_of_le hab (hbsc.trans (h.trans hra))) (lt_irrefl a)
            · exact le_trans (min_le_right (g s') _) h
          · intro hbr2
            have hle := ih2 hbr2
            refine le_min ?_ ?_
            · exact le_trans (hle.trans (min_le_left _ _)) hsc_le_g
            · exact hle.trans (min_le_right _ _)
          · intro har hrb
            have hr_eq := ih3 har hrb
            have hrF : abMin f s cs (min m (f s' a b)) a b =
                (cs.map (fun c => g (makeMove s c).1)).foldr min m := by
              rcases min_choice (f s' a b)
                  ((cs.map (fun c => g (makeMove s c).1)).foldr min m) with h | h <;>
                rw [h] at hr_eq
              · exact absurd (hr_eq ▸ hrb) (not_lt.mpr hbsc)
              · exact hr_eq
            rw [hrF]
            refine (min_eq_right ?_).symm
            exact le_of_lt (lt_of_lt_of_le (hrF ▸ hrb) (hbsc.trans hsc_le_g))
        · have hb' : min b (f s' a b) = f s' a b := min_eq_right (le_of_lt hscb)
          have hasc : a < f s' a b := by
            rw [hb'] at hab'
            exact hab'
          rw [hb'] at ihm ih1 ih2 ih3 ⊢
          have hsc_eq : f s' a b = g s' := hf3 hasc hscb
          refine ⟨le_trans ihm (min_le_left m _), ?_, ?_, ?_⟩
          · intro hra
            rw [← hsc_eq]
            exact ih1 hra
          · intro hbr2
            exfalso
            have hrsc : abMin f s cs (min m (f s' a b)) a (f s' a b) ≤ f s' a b :=
              le_trans ihm (min_le_right m _)
            exact absurd (lt_of_le_of_lt (hbr2.trans hrsc) hscb) (lt_irrefl b)
          · intro har hrb
            rw [← hsc_eq]
            rcases eq_or_lt_of_le (le_trans ihm (min_le_right m _)) with hreq | hrlt
            · have h2 := ih2 hreq.ge
              exact le_antisymm h2 ((min_le_left (f s' a b) _).trans hreq.ge)
            · exact ih3 har hrlt

/-- Unfolding `minimax` at a successor depth. -/
lemma minimax_succ (d : Nat) (s : GameState) (isMax : Bool) (a b : Score) :
    minimax (d + 1) s isMax a b =
      if s.winner = some Player.yellow then sInt (1000 + (d + 1 : Nat))
      else if s.winner = some Player.red then sInt (-1000 - (d + 1 : Nat))
      else if s.isDraw = true then sInt (evaluateBoard s.board)
      else if isMax then
        abMax (fun s' a b => minimax d s' false a b) s (getValidMoves s.board) ⊥ a b
      else
        abMin (fun s' a b => minimax d s' true a b) s (getValidMoves s.board) ⊤ a b := by
  rw [minimax.eq_def]

/-- Unfolding `fullMinimax` at a successor depth. -/
lemma fullMinimax_succ (d : Nat) (s : GameState) (isMax : Bool) :
    fullMinimax (d + 1) s isMax =
      if s.winner = some Player.yellow then sInt (1000 + (d + 1 : Nat))
      else if s.winner = some Player.red then sInt (-1000 - (d + 1 : Nat))
      else if s.isDraw = true then sInt (evaluateBoard s.board)
      else if isMax then
        ((getValidMoves s.board).map
          (fun c => fullMinimax d (makeMove s c).1 false)).foldr max ⊥
      else
        ((getValidMoves s.board).map
          (fun c => fullMinimax d (makeMove s c).1 true)).foldr min ⊤ := by
  rw [fullMinimax.eq_def]

/-- At depth 0 the two searches agree outright. -/
lemma minimax_zero_eq (s : GameState) (isMax : Bool) (a b : Score) :
    minimax 0 s isMax a b = fullMinimax 0 s isMax := by
  rw [minimax.eq_def, fullMinimax.eq_def]

/-- The alpha-beta search satisfies the window contract against exhaustive
full-width minimax at every depth, state, and non-trivial window. -/
lemma minimax_triple :
    ∀ (d : Nat) (s : GameState) (isMax : Bool) (a b : Score), a < b →
      ABApprox (minimax d s isMax a b) (fullMinimax d s isMax) a b := by
  intro d
  induction d with
  | zero =>
    intro s isMax a b hab
    exact abApprox_of_eq _ _ _ _ (minimax_zero_eq s isMax a b)
  | succ d ih =>
    intro s isMax a b hab
    rw [minimax_succ, fullMinimax_succ]
    split_ifs with h1 h2 h3 h4
    · exact abApprox_of_eq _ _ _ _ rfl
    · exact abApprox_of_eq _ _ _ _ rfl
    · exact abApprox_of_eq _ _ _ _ rfl
    · have hskip : ∀ c ∈ getValidMoves s.board, (makeMove s c).2 ≠ none :=
        fun c hc => makeMove_pos_of_valid s c (mem_getValidMoves s.board c hc)
      exact (abMax_triple (fun s' a b => minimax d s' false a b)
        (fun s' => fullMinimax d s' false) s
        (fun s' a' b' hab' => ih s' false a' b' hab')
        (getValidMoves s.board) ⊥ a b hab hskip).2
    · have hskip : ∀ c ∈ getValidMoves s.board, (makeMove s c).2 ≠ none :=
        fun c hc => makeMove_pos_of_valid s c (mem_getValidMoves s.board c hc)
      exact (abMin_triple (fun s' a b => minimax d s' true a b)
        (fun s' => fullMinimax d s' true) s
        (fun s' a' b' hab' => ih s' true a' b' hab')
        (getValidMoves s.board) ⊤ a b hab hskip).2

/-- With the full window, alpha-beta search computes the exact full-width
minimax value. -/
lemma minimax_full_window (d : Nat) (s : GameState) (isMax : Bool) :
    minimax d s isMax ⊥ ⊤ = fullMinimax d s isMax := by
  obtain ⟨t1, t2, t3⟩ := minimax_triple d s isMax ⊥ ⊤ bot_lt_top
  rcases eq_or_lt_of_le (bot_le : ⊥ ≤ minimax d s isMax ⊥ ⊤) with hb | hb
  · have hv := t1 (le_of_eq hb.symm)
    exact le_antisymm (hb ▸ (bot_le : (⊥ : Score) ≤ fullMinimax d s isMax)) hv
  · rcases eq_or_lt_of_le (le_top : minimax d s isMax ⊥ ⊤ ≤ ⊤) with ht | ht
    · have hv := t2 ht.ge
      exact le_antisymm hv (by rw [ht]; exact le_top)
    · exact t3 hb ht

/-- Rescoring the root loop with full-width minimax changes nothing. -/
lemma rootLoop_eq_full (s : GameState) (d : Nat) :
    ∀ (cs : List Nat) (best : AIMoveEvaluation),
      rootLoop s d cs best = fullRootLoop s d cs best
  | [], _ => rfl
  | c :: cs, best => by
    unfold rootLoop fullRootLoop
    cases hmk : makeMove s c with
    | mk s' op =>
      cases op with
      | none => exact rootLoop_eq_full s d cs best
      | some p =>
        dsimp only
        rw [minimax_full_window d s' false]
        split_ifs with h
        · exact rootLoop_eq_full s d cs _
        · exact rootLoop_eq_full s d cs best

/-- The chosen root evaluation is identical under pruned and full search. -/
lemma minimaxMove_eq_full (s : GameState) (depth : Nat) :
    minimaxMove s depth = fullMinimaxMove s depth := by
  unfold minimaxMove fullMinimaxMove
  exact rootLoop_eq_full s (depth - 1) _ _

/-- C6: for every state and depth the alpha-beta root value with the full
window equals exhaustive full-width minimax, and the chosen column is the
same under the shared first-maximum tie-break. -/
theorem alphaBeta_eq_fullMinimax :
    (∀ (d : Nat) (s : GameState) (isMax : Bool),
      minimax d s isMax ⊥ ⊤ = fullMinimax d s isMax) ∧
    ∀ (s : GameState) (depth : Nat),
      (minimaxMove s depth).column = (fullMinimaxMove s depth).column :=
  ⟨minimax_full_window,
    fun s depth => congrArg AIMoveEvaluation.column (minimaxMove_eq_full s depth)⟩
